import Mathlib

/-!
Shallow embedding of porcupine's text widget (src/porcupine/textwidget.py):
the indentation and dedentation operations, the auto-indent logic, the
cursor-move and modification notification dispatch, undo/redo, and the
tab-key handler.  Lines of the Tk text buffer are embedded as `List Char`;
Python integers as `Int`; the Tk buffer state relevant to each handler as a
small structure with explicit state passing.
-/

namespace Porcupine

/-- Python `str.isspace` on a single character, for the characters that can
occur in a text line: the ASCII and Latin-1 whitespace characters.  Used by
`spacecount` via `char.isspace()`. -/
def pyIsSpace (c : Char) : Bool :=
  c = ' ' || c = '\t' || c = '\n' || c = '\x0b' || c = '\x0c' || c = '\x0d' ||
  c = '\x1c' || c = '\x1d' || c = '\x1e' || c = '\x1f' || c = '\x85' || c = '\xa0'

/-- Python `s.isspace()`: true when the string is nonempty and every
character is whitespace. -/
def pyStrIsSpace (s : List Char) : Bool :=
  !s.isEmpty && s.all pyIsSpace

/-- `spacecount(string)`: count how many whitespace characters the string
starts with, stopping at the first newline or non-whitespace character. -/
def spacecount : List Char → Nat
  | [] => 0
  | c :: rest =>
    if c = '\n' || !(pyIsSpace c) then 0
    else spacecount rest + 1

/-- The number of leading whitespace characters of a line (newline included),
used to state that a dedent never deletes past the leading whitespace. -/
def leadingWhitespaceCount (line : List Char) : Nat :=
  (line.takeWhile pyIsSpace).length

/-- `EditorText.indent(lineno)`, restricted to its effect on the single line
it touches.  `w` is `self._settings['indent']`, `line` is the line content
fetched from the buffer (trailing newline included).  `spaces2add` spaces are
inserted at the start of the line; the function returns the new line together
with the Python return value `spaces + spaces2add`. -/
def indent (w : Nat) (line : List Char) : List Char × Int :=
  let spaces : Int := (spacecount line : Int)
  let spaces2add : Int := (w : Int) - spaces % (w : Int)
  (List.replicate spaces2add.toNat ' ' ++ line, spaces + spaces2add)

/-- `EditorText.dedent(lineno)`, restricted to its effect on the single line
it touches.  If the line starts with no countable whitespace it is returned
unchanged with result 0; otherwise the first `howmany2del` characters are
deleted and `spaces - howmany2del` is returned. -/
def dedent (w : Nat) (line : List Char) : List Char × Int :=
  let spaces : Int := (spacecount line : Int)
  if spaces = 0 then (line, 0)
  else
    let howmany2del : Int :=
      if spaces % (w : Int) = 0 then (w : Int) else spaces % (w : Int)
    (line.drop howmany2del.toNat, spaces - howmany2del)

/- ### Basic lemmas about `spacecount` -/

theorem spacecount_replicate_space_append (k : Nat) (l : List Char) :
    spacecount (List.replicate k ' ' ++ l) = k + spacecount l := by
  induction k with
  | zero => simp
  | succ n ih =>
      have hrep : List.replicate (n + 1) ' ' ++ l = ' ' :: (List.replicate n ' ' ++ l) := by
        simp [List.replicate_succ]
      rw [hrep]
      simp only [spacecount]
      rw [if_neg (by decide), ih]
      omega

theorem spacecount_le_leadingWhitespaceCount (l : List Char) :
    spacecount l ≤ leadingWhitespaceCount l := by
  induction l with
  | nil => simp [spacecount, leadingWhitespaceCount]
  | cons c rest ih =>
      by_cases h : c = '\n' || !(pyIsSpace c)
      · simp [spacecount, h]
      · have hsp : pyIsSpace c = true := by
          cases hp : pyIsSpace c
          · simp [hp] at h
          · rfl
        have hs : spacecount (c :: rest) = spacecount rest + 1 := by
          simp [spacecount, h]
        have hl : leadingWhitespaceCount (c :: rest) = leadingWhitespaceCount rest + 1 := by
          simp [leadingWhitespaceCount, List.takeWhile_cons, hsp]
        rw [hs, hl]
        omega

theorem spacecount_drop (l : List Char) (d : Nat) (h : d ≤ spacecount l) :
    spacecount (l.drop d) = spacecount l - d := by
  induction d generalizing l with
  | zero => simp
  | succ n ih =>
      cases l with
      | nil => simp [spacecount] at h
      | cons c rest =>
          by_cases hc : c = '\n' || !(pyIsSpace c)
          · simp [spacecount, hc] at h
          · have hs : spacecount (c :: rest) = spacecount rest + 1 := by
              simp [spacecount, hc]
            rw [hs] at h ⊢
            simpa [List.drop_succ_cons] using ih rest (by omega)

theorem spacecount_le_length (l : List Char) : spacecount l ≤ l.length := by
  induction l with
  | nil => simp [spacecount]
  | cons c rest ih =>
      by_cases hc : c = '\n' || !(pyIsSpace c)
      · simp [spacecount, hc]
      · have hs : spacecount (c :: rest) = spacecount rest + 1 := by
          simp [spacecount, hc]
        rw [hs]
        simp only [List.length_cons]
        omega

/- ### Unfolding lemmas for `indent` and `dedent` -/

theorem indent_fst (w : Nat) (line : List Char) :
    (indent w line).1 = List.replicate (w - spacecount line % w) ' ' ++ line := by
  show List.replicate ((w : Int) - (spacecount line : Int) % (w : Int)).toNat ' ' ++ line = _
  rw [Int.ofNat_mod_ofNat, Int.toNat_sub]

theorem indent_snd (w : Nat) (line : List Char) :
    (indent w line).2 =
      (spacecount line : Int) + ((w : Int) - ((spacecount line % w : Nat) : Int)) := by
  show (spacecount line : Int) + ((w : Int) - (spacecount line : Int) % (w : Int)) = _
  rw [Int.ofNat_mod_ofNat]

theorem dedent_eq_zero (w : Nat) (line : List Char) (h : spacecount line = 0) :
    dedent w line = (line, 0) := by
  simp [dedent, h]

theorem dedent_eq_pos (w : Nat) (line : List Char) (h : 0 < spacecount line) :
    dedent w line =
      (line.drop (if spacecount line % w = 0 then w else spacecount line % w),
       (spacecount line : Int) -
         ((if spacecount line % w = 0 then w else spacecount line % w : Nat) : Int)) := by
  have h0 : ¬ ((spacecount line : Int) = 0) := by
    exact_mod_cast Nat.pos_iff_ne_zero.mp h
  have hcond : ((spacecount line : Int) % (w : Int) = 0) ↔ spacecount line % w = 0 := by
    rw [Int.ofNat_mod_ofNat]
    exact_mod_cast Iff.rfl
  by_cases hr : spacecount line % w = 0
  · have hstep : dedent w line =
        (line.drop ((w : Int)).toNat, (spacecount line : Int) - (w : Int)) := by
      simp only [dedent]
      rw [if_neg h0, if_pos (hcond.mpr hr)]
    rw [hstep]
    have htn : ((w : Int)).toNat = w := by omega
    rw [htn, if_pos hr]
  · have hstep : dedent w line =
        (line.drop ((spacecount line : Int) % (w : Int)).toNat,
         (spacecount line : Int) - (spacecount line : Int) % (w : Int)) := by
      simp only [dedent]
      rw [if_neg h0, if_neg (fun hc => hr (hcond.mp hc))]
    rw [hstep, Int.ofNat_mod_ofNat]
    have htn : ((spacecount line % w : Nat) : Int).toNat = spacecount line % w := by omega
    rw [htn, if_neg hr]

/- ### Arithmetic helpers -/

theorem mul_succ_le_of_mul_lt (W Q K : Int) (hW : 0 < W) (h : W * Q < W * K) :
    W * (Q + 1) ≤ W * K := by
  have hk : Q < K := lt_of_mul_lt_mul_left h (le_of_lt hW)
  exact mul_le_mul_of_nonneg_left (by omega) (le_of_lt hW)

theorem mul_le_mul_sub_one_of_lt (W Q K : Int) (hW : 0 < W) (h : W * K < W * Q) :
    W * K ≤ W * (Q - 1) := by
  have hk : K < Q := lt_of_mul_lt_mul_left h (le_of_lt hW)
  exact mul_le_mul_of_nonneg_left (by omega) (le_of_lt hW)

/-- C1: `indent` inserts exactly `w - (s % w)` spaces at the start of the
line (`s` its leading-space count), and returns the resulting leading-space
count, which is the smallest multiple of `w` strictly greater than `s`. -/
theorem indent_adds_to_next_multiple (w : Nat) (line : List Char) (hw : 0 < w) :
    (indent w line).1 = List.replicate (w - spacecount line % w) ' ' ++ line ∧
    (indent w line).2 = (spacecount (indent w line).1 : Int) ∧
    (w : Int) ∣ (indent w line).2 ∧
    (spacecount line : Int) < (indent w line).2 ∧
    ∀ m : Int, (w : Int) ∣ m → (spacecount line : Int) < m → (indent w line).2 ≤ m := by
  have hmod : spacecount line % w < w := Nat.mod_lt _ hw
  have hdm : w * (spacecount line / w) + spacecount line % w = spacecount line :=
    Nat.div_add_mod _ _
  have hdmZ : (w : Int) * ((spacecount line / w : Nat) : Int) +
      ((spacecount line % w : Nat) : Int) = (spacecount line : Int) := by
    exact_mod_cast congrArg (fun n : Nat => (n : Int)) hdm
  have hmodZ : ((spacecount line % w : Nat) : Int) < (w : Int) := by exact_mod_cast hmod
  have hmod0Z : (0 : Int) ≤ ((spacecount line % w : Nat) : Int) := Int.natCast_nonneg _
  have hwZ : (0 : Int) < (w : Int) := by exact_mod_cast hw
  refine ⟨indent_fst w line, ?_, ?_, ?_, ?_⟩
  · rw [indent_snd, indent_fst, spacecount_replicate_space_append]
    push_cast
    omega
  · refine ⟨((spacecount line / w : Nat) : Int) + 1, ?_⟩
    rw [indent_snd]
    have hexp : (w : Int) * (((spacecount line / w : Nat) : Int) + 1) =
        (w : Int) * ((spacecount line / w : Nat) : Int) + (w : Int) := by ring
    omega
  · rw [indent_snd]
    omega
  · intro m hdvd hlt
    obtain ⟨k, rfl⟩ := hdvd
    rw [indent_snd]
    have hq : (w : Int) * ((spacecount line / w : Nat) : Int) < (w : Int) * k := by omega
    have hle := mul_succ_le_of_mul_lt (w : Int) ((spacecount line / w : Nat) : Int) k hwZ hq
    have hexp : (w : Int) * (((spacecount line / w : Nat) : Int) + 1) =
        (w : Int) * ((spacecount line / w : Nat) : Int) + (w : Int) := by ring
    omega

/-- C2: `dedent` on a line with no countable leading whitespace is a no-op
returning 0; otherwise it deletes `s % w` characters (a full `w` when that
remainder is zero) from the start of the line and returns the resulting
leading-space count, the largest multiple of `w` strictly below `s`
(never negative). -/
theorem dedent_removes_to_prev_multiple (w : Nat) (line : List Char) (hw : 0 < w) :
    (spacecount line = 0 → dedent w line = (line, 0)) ∧
    (0 < spacecount line →
      (dedent w line).1 =
        line.drop (if spacecount line % w = 0 then w else spacecount line % w) ∧
      (dedent w line).2 = (spacecount (dedent w line).1 : Int) ∧
      (w : Int) ∣ (dedent w line).2 ∧
      0 ≤ (dedent w line).2 ∧
      (dedent w line).2 < (spacecount line : Int) ∧
      ∀ m : Int, (w : Int) ∣ m → m < (spacecount line : Int) → m ≤ (dedent w line).2) := by
  constructor
  · exact dedent_eq_zero w line
  · intro h
    have hmod : spacecount line % w < w := Nat.mod_lt _ hw
    have hdm : w * (spacecount line / w) + spacecount line % w = spacecount line :=
      Nat.div_add_mod _ _
    have hdmZ : (w : Int) * ((spacecount line / w : Nat) : Int) +
        ((spacecount line % w : Nat) : Int) = (spacecount line : Int) := by
      exact_mod_cast congrArg (fun n : Nat => (n : Int)) hdm
    have hmodZ : ((spacecount line % w : Nat) : Int) < (w : Int) := by exact_mod_cast hmod
    have hmod0Z : (0 : Int) ≤ ((spacecount line % w : Nat) : Int) := Int.natCast_nonneg _
    have hwZ : (0 : Int) < (w : Int) := by exact_mod_cast hw
    have hdel_le : (if spacecount line % w = 0 then w else spacecount line % w) ≤
        spacecount line := by
      by_cases hr : spacecount line % w = 0
      · rw [if_pos hr]
        exact Nat.le_of_dvd h (Nat.dvd_of_mod_eq_zero hr)
      · rw [if_neg hr]
        exact Nat.mod_le _ _
    have hfst : (dedent w line).1 =
        line.drop (if spacecount line % w = 0 then w else spacecount line % w) := by
      rw [dedent_eq_pos w line h]
    have hsnd : (dedent w line).2 = (spacecount line : Int) -
        ((if spacecount line % w = 0 then w else spacecount line % w : Nat) : Int) := by
      rw [dedent_eq_pos w line h]
    refine ⟨hfst, ?_, ?_, ?_, ?_, ?_⟩
    · rw [hsnd, hfst, spacecount_drop line _ hdel_le]
      by_cases hr : spacecount line % w = 0
      · rw [if_pos hr]
        have hwle : w ≤ spacecount line := Nat.le_of_dvd h (Nat.dvd_of_mod_eq_zero hr)
        omega
      · rw [if_neg hr]
        push_cast
        omega
    · by_cases hr : spacecount line % w = 0
      · refine ⟨((spacecount line / w : Nat) : Int) - 1, ?_⟩
        rw [hsnd, if_pos hr]
        have hexp : (w : Int) * (((spacecount line / w : Nat) : Int) - 1) =
            (w : Int) * ((spacecount line / w : Nat) : Int) - (w : Int) := by ring
        omega
      · refine ⟨((spacecount line / w : Nat) : Int), ?_⟩
        rw [hsnd, if_neg hr]
        omega
    · rw [hsnd]
      by_cases hr : spacecount line % w = 0
      · rw [if_pos hr]
        have hwle : w ≤ spacecount line := Nat.le_of_dvd h (Nat.dvd_of_mod_eq_zero hr)
        omega
      · rw [if_neg hr]
        omega
    · rw [hsnd]
      have hpos : (0 : Int) < (spacecount line : Int) := by exact_mod_cast h
      by_cases hr : spacecount line % w = 0
      · rw [if_pos hr]
        omega
      · have hrpos : 0 < ((spacecount line % w : Nat) : Int) := by
          have h2 : 0 < spacecount line % w := Nat.pos_of_ne_zero hr
          exact_mod_cast h2
        rw [if_neg hr]
        omega
    · intro m hdvd hlt
      obtain ⟨k, rfl⟩ := hdvd
      rw [hsnd]
      by_cases hr : spacecount line % w = 0
      · rw [if_pos hr]
        have hq : (w : Int) * k < (w : Int) * ((spacecount line / w : Nat) : Int) := by omega
        have hle := mul_le_mul_sub_one_of_lt (w : Int) ((spacecount line / w : Nat) : Int) k
          hwZ hq
        have hexp : (w : Int) * (((spacecount line / w : Nat) : Int) - 1) =
            (w : Int) * ((spacecount line / w : Nat) : Int) - (w : Int) := by ring
        omega
      · rw [if_neg hr]
        have hq : (w : Int) * k < (w : Int) * (((spacecount line / w : Nat) : Int) + 1) := by
          have hexp : (w : Int) * (((spacecount line / w : Nat) : Int) + 1) =
              (w : Int) * ((spacecount line / w : Nat) : Int) + (w : Int) := by ring
          omega
        have hle := mul_le_mul_sub_one_of_lt (w : Int)
          (((spacecount line / w : Nat) : Int) + 1) k hwZ hq
        have hexp2 : (w : Int) * ((((spacecount line / w : Nat) : Int) + 1) - 1) =
            (w : Int) * ((spacecount line / w : Nat) : Int) := by ring
        omega

/-- Witness for C1: with width 4 and a line holding 3 leading spaces, the
indent result is a multiple of 4 strictly above 3. -/
theorem indent_adds_to_next_multiple_witness :
    (0 < 4) ∧ (4 : Int) ∣ (indent 4 [' ', ' ', ' ', 'x', '\n']).2 ∧
      (spacecount [' ', ' ', ' ', 'x', '\n'] : Int) < (indent 4 [' ', ' ', ' ', 'x', '\n']).2 :=
  ⟨by decide,
   (indent_adds_to_next_multiple 4 [' ', ' ', ' ', 'x', '\n'] (by decide)).2.2.1,
   (indent_adds_to_next_multiple 4 [' ', ' ', ' ', 'x', '\n'] (by decide)).2.2.2.1⟩

/-- Witness for C2: with width 4 and a line holding 5 leading spaces, the
dedent result equals the count of the dedented line. -/
theorem dedent_removes_to_prev_multiple_witness :
    (0 < 4) ∧ (0 < spacecount [' ', ' ', ' ', ' ', ' ', 'x', '\n']) ∧
      (dedent 4 [' ', ' ', ' ', ' ', ' ', 'x', '\n']).2 =
        (spacecount (dedent 4 [' ', ' ', ' ', ' ', ' ', 'x', '\n']).1 : Int) :=
  ⟨by decide, by decide,
   ((dedent_removes_to_prev_multiple 4 [' ', ' ', ' ', ' ', ' ', 'x', '\n']
      (by decide)).2 (by decide)).2.1⟩

/- ### C4: indent and dedent are not inverses -/

theorem howmany2del_le_spacecount (w : Nat) (line : List Char)
    (h : 0 < spacecount line) :
    (if spacecount line % w = 0 then w else spacecount line % w) ≤ spacecount line := by
  by_cases hr : spacecount line % w = 0
  · rw [if_pos hr]
    exact Nat.le_of_dvd h (Nat.dvd_of_mod_eq_zero hr)
  · rw [if_neg hr]
    exact Nat.mod_le _ _

/-- C4: `indent` followed by `dedent` on a line whose leading-space count is
not a multiple of the width lands on `s - s % w`, which is not the original
count `s`. -/
theorem indent_dedent_not_roundtrip (w : Nat) (line : List Char) (hw : 0 < w)
    (h : spacecount line % w ≠ 0) :
    (dedent w (indent w line).1).2 =
      ((spacecount line - spacecount line % w : Nat) : Int) ∧
    (dedent w (indent w line).1).2 ≠ (spacecount line : Int) := by
  have hmod : spacecount line % w < w := Nat.mod_lt _ (by omega)
  have hmodle : spacecount line % w ≤ spacecount line := Nat.mod_le _ _
  have hdm : w * (spacecount line / w) + spacecount line % w = spacecount line :=
    Nat.div_add_mod _ _
  have hs1 : spacecount (indent w line).1 = w - spacecount line % w + spacecount line := by
    rw [indent_fst, spacecount_replicate_space_append]
  have hs1m : spacecount (indent w line).1 = w * (spacecount line / w + 1) := by
    rw [hs1, Nat.mul_succ]
    omega
  have hmod1 : spacecount (indent w line).1 % w = 0 := by
    rw [hs1m]
    exact Nat.mul_mod_right _ _
  have hpos1 : 0 < spacecount (indent w line).1 := by
    rw [hs1]
    omega
  have hsnd1 : (dedent w (indent w line).1).2 =
      (spacecount (indent w line).1 : Int) - ((w : Nat) : Int) := by
    rw [dedent_eq_pos w _ hpos1, if_pos hmod1]
  constructor
  · rw [hsnd1, hs1]
    push_cast
    omega
  · rw [hsnd1, hs1]
    push_cast
    omega

/-- Witness for C4: width 4, original count 3: indent gives count 4, the
following dedent gives 0, not 3. -/
theorem indent_dedent_not_roundtrip_witness :
    (dedent 4 (indent 4 [' ', ' ', ' ', 'x', '\n']).1).2 = 0 ∧
      (dedent 4 (indent 4 [' ', ' ', ' ', 'x', '\n']).1).2 ≠
        (spacecount [' ', ' ', ' ', 'x', '\n'] : Int) :=
  ⟨by decide,
   (indent_dedent_not_roundtrip 4 [' ', ' ', ' ', 'x', '\n'] (by decide) (by decide)).2⟩

/-- C5: `dedent` never deletes more characters than the line's leading
whitespace, and neither `indent` nor `dedent` ever returns a negative
leading-space count. -/
theorem indent_dedent_safety (w : Nat) (line : List Char) (hw : 0 < w) :
    line.length - (dedent w line).1.length ≤ leadingWhitespaceCount line ∧
    0 ≤ (dedent w line).2 ∧
    0 ≤ (indent w line).2 := by
  have hmod : spacecount line % w < w := Nat.mod_lt _ hw
  have hmodZ : ((spacecount line % w : Nat) : Int) < (w : Int) := by exact_mod_cast hmod
  have hmod0Z : (0 : Int) ≤ ((spacecount line % w : Nat) : Int) := Int.natCast_nonneg _
  have hindent : 0 ≤ (indent w line).2 := by
    rw [indent_snd]
    omega
  rcases Nat.eq_zero_or_pos (spacecount line) with h0 | hpos
  · rw [dedent_eq_zero w line h0]
    refine ⟨?_, by omega, hindent⟩
    simp
  · have hdel := howmany2del_le_spacecount w line hpos
    have hsle := spacecount_le_leadingWhitespaceCount line
    have hfst : (dedent w line).1 =
        line.drop (if spacecount line % w = 0 then w else spacecount line % w) := by
      rw [dedent_eq_pos w line hpos]
    have hsnd : (dedent w line).2 = (spacecount line : Int) -
        ((if spacecount line % w = 0 then w else spacecount line % w : Nat) : Int) := by
      rw [dedent_eq_pos w line hpos]
    have hslen := spacecount_le_length line
    refine ⟨?_, ?_, hindent⟩
    · rw [hfst, List.length_drop]
      omega
    · rw [hsnd]
      have hcast : ((if spacecount line % w = 0 then w else spacecount line % w : Nat) : Int) ≤
          (spacecount line : Int) := by exact_mod_cast hdel
      omega

/-- Witness for C5 at width 4 on a line of five spaces then text. -/
theorem indent_dedent_safety_witness :
    [' ', ' ', ' ', ' ', ' ', 'x'].length -
        (dedent 4 [' ', ' ', ' ', ' ', ' ', 'x']).1.length ≤
      leadingWhitespaceCount [' ', ' ', ' ', ' ', ' ', 'x'] ∧
    0 ≤ (dedent 4 [' ', ' ', ' ', ' ', ' ', 'x']).2 ∧
    0 ≤ (indent 4 [' ', ' ', ' ', ' ', ' ', 'x']).2 :=
  indent_dedent_safety 4 [' ', ' ', ' ', ' ', ' ', 'x'] (by decide)

/-- C10: `spacecount` returns the length of the longest prefix of whitespace
characters other than newline: tab (and any non-newline whitespace) is
counted, and a newline terminates the count even though it is itself
whitespace. -/
theorem spacecount_counts_nonnewline_whitespace :
    (∀ l : List Char,
      spacecount l = (l.takeWhile (fun c => !(c = '\n') && pyIsSpace c)).length) ∧
    pyIsSpace '\t' = true ∧ pyIsSpace '\n' = true ∧
    spacecount ['\t', '\t', 'x'] = 2 ∧ spacecount ['\n', ' '] = 0 := by
  refine ⟨?_, by decide, by decide, by decide, by decide⟩
  intro l
  induction l with
  | nil => simp [spacecount]
  | cons c rest ih =>
      by_cases h1 : c = '\n'
      · subst h1
        simp [spacecount, List.takeWhile_cons]
      · by_cases h2 : pyIsSpace c
        · have hsc : spacecount (c :: rest) = spacecount rest + 1 := by
            simp [spacecount, h1, h2]
          rw [hsc, List.takeWhile_cons, if_pos (by simp [h1, h2]), List.length_cons, ih]
        · have hsc : spacecount (c :: rest) = 0 := by
            simp [spacecount, h1, h2]
          rw [hsc, List.takeWhile_cons, if_neg (by simp [h2]), List.length_nil]

/- ### C3: auto-indent after Enter -/

/-- Python `str.rstrip()`: the string with its trailing whitespace removed. -/
def pyRstrip (s : List Char) : List Char :=
  (s.reverse.dropWhile pyIsSpace).reverse

/-- Python `prevline.rstrip().endswith((':', '(', '[', '\x7b'))` applied to an
already-stripped string: true when its last character is a block opener. -/
def endsWithOpener (s : List Char) : Bool :=
  match s.getLast? with
  | some c => c = ':' || c = '(' || c = '[' || c = '\x7b'
  | none => false

/-- `EditorText._autoindent`, restricted to its effect on the fresh line the
cursor sits on after the Return key.  `prevline` is the previous line as
fetched from the buffer (trailing newline included) and `newline` is the
fresh line, with the cursor at column 0.  If the previous line ends in an
opener (ignoring trailing whitespace), `indent` runs on the new line first,
inserting spaces at column 0; the insert mark has right gravity, so the
cursor ends up after those spaces, and the copy of the previous line's
leading whitespace is inserted there. -/
def autoindent (w : Nat) (prevline newline : List Char) : List Char :=
  let line1 := if endsWithOpener (pyRstrip prevline) then (indent w newline).1 else newline
  let cursor := line1.length - newline.length
  line1.take cursor ++ List.replicate (spacecount prevline) ' ' ++ line1.drop cursor

/-- Counterexample to C3: with indent width 4 and previous line
`    if x:`, the code leaves the new line with 8 leading spaces
(one indent width plus the copied previous-line whitespace), not 4. -/
theorem autoindent_blockopen_counterexample :
    spacecount
        (autoindent 4 [' ', ' ', ' ', ' ', 'i', 'f', ' ', 'x', ':', '\n'] ['\n']) = 8 ∧
      spacecount
        (autoindent 4 [' ', ' ', ' ', ' ', 'i', 'f', ' ', 'x', ':', '\n'] ['\n']) ≠ 4 := by
  constructor
  · decide
  · decide

/-- C3 (amended): the scheduled auto-indent inspects the line above the new
line; if it ends (ignoring trailing whitespace) with one of the four openers
it indents the new line once and then copies the previous line's leading
whitespace onto it, so the new line holds the copied count plus one full
indent width (8 leading spaces in the `    if x:` example); otherwise the
new line holds exactly the copied count (4 in the `    y = 1` example). -/
theorem autoindent_copies_and_indents (w : Nat) (hw : 0 < w) (prevline : List Char) :
    spacecount (autoindent w prevline ['\n']) =
      if endsWithOpener (pyRstrip prevline) then spacecount prevline + w
      else spacecount prevline := by
  have hnl : spacecount ['\n'] = 0 := by decide
  by_cases hop : endsWithOpener (pyRstrip prevline) = true
  · have hind1 : (indent w ['\n']).1 = List.replicate w ' ' ++ ['\n'] := by
      rw [indent_fst, hnl, Nat.zero_mod, Nat.sub_zero]
    have hlen : ((indent w ['\n']).1).length - (['\n'] : List Char).length = w := by
      rw [hind1]
      simp
    have hcalc : autoindent w prevline ['\n'] =
        ((indent w ['\n']).1).take w ++ (List.replicate (spacecount prevline) ' ' ++
          ((indent w ['\n']).1).drop w) := by
      simp only [autoindent, if_pos hop, hlen, List.append_assoc]
    have htake : ((indent w ['\n']).1).take w = List.replicate w ' ' := by
      rw [hind1]
      exact List.take_left' (by simp)
    have hdrop : ((indent w ['\n']).1).drop w = ['\n'] := by
      rw [hind1]
      exact List.drop_left' (by simp)
    rw [hcalc, htake, hdrop, if_pos hop, spacecount_replicate_space_append,
      spacecount_replicate_space_append, hnl]
    omega
  · have hcalc : autoindent w prevline ['\n'] =
        List.replicate (spacecount prevline) ' ' ++ ['\n'] := by
      simp only [autoindent, if_neg hop, Nat.sub_self, List.take_zero, List.drop_zero,
        List.nil_append]
    rw [hcalc, if_neg hop, spacecount_replicate_space_append, hnl]
    omega

/-- Witness for the amended C3 on both spec examples: previous line
`    if x:` gives 8 leading spaces and previous line `    y = 1` gives 4. -/
theorem autoindent_copies_and_indents_witness :
    (spacecount (autoindent 4 [' ', ' ', ' ', ' ', 'i', 'f', ' ', 'x', ':', '\n'] ['\n']) =
      if endsWithOpener (pyRstrip [' ', ' ', ' ', ' ', 'i', 'f', ' ', 'x', ':', '\n']) then
        spacecount [' ', ' ', ' ', ' ', 'i', 'f', ' ', 'x', ':', '\n'] + 4
      else spacecount [' ', ' ', ' ', ' ', 'i', 'f', ' ', 'x', ':', '\n']) ∧
    (spacecount
        (autoindent 4 [' ', ' ', ' ', ' ', 'y', ' ', '=', ' ', '1', '\n'] ['\n']) =
      if endsWithOpener (pyRstrip [' ', ' ', ' ', ' ', 'y', ' ', '=', ' ', '1', '\n']) then
        spacecount [' ', ' ', ' ', ' ', 'y', ' ', '=', ' ', '1', '\n'] + 4
      else spacecount [' ', ' ', ' ', ' ', 'y', ' ', '=', ' ', '1', '\n']) :=
  ⟨autoindent_copies_and_indents 4 (by decide) [' ', ' ', ' ', ' ', 'i', 'f', ' ', 'x', ':', '\n'],
   autoindent_copies_and_indents 4 (by decide) [' ', ' ', ' ', ' ', 'y', ' ', '=', ' ', '1', '\n']⟩

/- ### Editor state: cursor cache, modified flag, undo/redo history -/

/-- A snapshot of the Tk text buffer: its contents and the position of the
`insert` mark (line, column). -/
structure Document where
  text : List Char
  insertPos : Nat × Nat

/-- The widget state relevant to cursor-move dispatch and undo/redo: the
buffer with its undo and redo history, the cached `_cursorpos`, and the
`on_cursor_move` listener list (listeners as opaque registration ids, in
registration order). -/
structure EditorState where
  undoStack : List Document
  currentDoc : Document
  redoStack : List Document
  cursorpos : Nat × Nat
  on_cursor_move : List Nat

/-- The value a Tk event handler returns: `suppress` models the string
`break` (stop default handling), `proceed` models Python `None` (let the
toolkit's default handling run). -/
inductive EventResult where
  | suppress
  | proceed
deriving DecidableEq

/-- `EditorText._do_cursor_move`: read the buffer's cursor position; when it
differs from the cache, update the cache and fire every `on_cursor_move`
listener in registration order.  The returned list is the sequence of
listener invocations. -/
def do_cursor_move (st : EditorState) : EditorState × List Nat :=
  let cursorpos := st.currentDoc.insertPos
  if cursorpos ≠ st.cursorpos then
    ({ st with cursorpos := cursorpos }, st.on_cursor_move)
  else
    (st, [])

/-- C6: every cursor-move check compares the buffer's cursor position with
the cached one; if they differ the cache is updated and every listener in
`on_cursor_move` fires in registration order, and if they are equal no
listener fires; hence whenever listeners fired, the cache equals the
buffer's actual cursor position afterwards. -/
theorem do_cursor_move_spec (st : EditorState) :
    (st.currentDoc.insertPos ≠ st.cursorpos →
      (do_cursor_move st).1.cursorpos = st.currentDoc.insertPos ∧
      (do_cursor_move st).2 = st.on_cursor_move) ∧
    (st.currentDoc.insertPos = st.cursorpos →
      (do_cursor_move st).2 = [] ∧ (do_cursor_move st).1 = st) ∧
    ((do_cursor_move st).2 ≠ [] →
      (do_cursor_move st).1.cursorpos = (do_cursor_move st).1.currentDoc.insertPos) := by
  by_cases h : st.currentDoc.insertPos = st.cursorpos
  · simp [do_cursor_move, h]
  · simp [do_cursor_move, h]

/-- Witness for C6: a state whose buffer cursor differs from the cache fires
both registered listeners in order. -/
theorem do_cursor_move_spec_witness :
    (do_cursor_move ⟨[], ⟨[], (2, 5)⟩, [], (1, 0), [7, 8]⟩).2 = [7, 8] :=
  ((do_cursor_move_spec ⟨[], ⟨[], (2, 5)⟩, [], (1, 0), [7, 8]⟩).1 (by decide)).2

/- ### Modification events -/

/-- The widget state relevant to modification dispatch: the buffer's
modified flag and the `on_modified` listener list. -/
structure ModifiedState where
  edit_modified : Bool
  on_modified : List Nat

/-- `EditorText._do_modified`: reset the buffer's modified flag, then invoke
every `on_modified` listener in registration order with no arguments.  Each
returned pair records a listener invocation together with the value of the
modified flag that listener observes at call time. -/
def do_modified (st : ModifiedState) : ModifiedState × List (Nat × Bool) :=
  let st1 : ModifiedState := { st with edit_modified := false }
  (st1, st1.on_modified.map (fun cb => (cb, st1.edit_modified)))

/-- The toolkit's Modified event is a latch: a later edit fires it again
only when the flag is clear at the time of that edit. -/
def editRefires (st : ModifiedState) : Bool := !st.edit_modified

/-- C7: on a modification event the handler clears the modified flag before
invoking any listener, then invokes every `on_modified` listener in
registration order; every listener observes the flag as cleared, so a
subsequent edit can fire the event again. -/
theorem do_modified_spec (st : ModifiedState) :
    (do_modified st).1.edit_modified = false ∧
    (do_modified st).2 = st.on_modified.map (fun cb => (cb, false)) ∧
    editRefires (do_modified st).1 = true :=
  ⟨rfl, rfl, rfl⟩

/- ### Undo and redo -/

/-- `edit_undo` of the Tk text widget: move the newest undo entry into the
current document, pushing the old current document on the redo stack; raise
`TclError` (the `error` case) when there is nothing to undo. -/
def edit_undo (st : EditorState) : Except Unit EditorState :=
  match st.undoStack with
  | [] => Except.error ()
  | d :: rest =>
      Except.ok { st with undoStack := rest, currentDoc := d,
                          redoStack := st.currentDoc :: st.redoStack }

/-- `edit_redo` of the Tk text widget, symmetric to `edit_undo`. -/
def edit_redo (st : EditorState) : Except Unit EditorState :=
  match st.redoStack with
  | [] => Except.error ()
  | d :: rest =>
      Except.ok { st with redoStack := rest, currentDoc := d,
                          undoStack := st.currentDoc :: st.undoStack }

/-- `EditorText.undo`: try `edit_undo`; on `TclError` absorb the error and
return `None` (`proceed`), otherwise run a cursor-move check and return
`break` (`suppress`).  The middle component lists the cursor-move listener
invocations. -/
def undo (st : EditorState) : EditorState × List Nat × EventResult :=
  match edit_undo st with
  | Except.error _ => (st, ([], EventResult.proceed))
  | Except.ok st1 =>
      let r := do_cursor_move st1
      (r.1, (r.2, EventResult.suppress))

/-- `EditorText.redo`, symmetric to `undo`. -/
def redo (st : EditorState) : EditorState × List Nat × EventResult :=
  match edit_redo st with
  | Except.error _ => (st, ([], EventResult.proceed))
  | Except.ok st1 =>
      let r := do_cursor_move st1
      (r.1, (r.2, EventResult.suppress))

/-- C8: with empty history in the requested direction, `undo`/`redo` absorb
the buffer's error, fire no listener, leave the state unchanged and let
default handling proceed; with non-empty history they perform the edit, run
a cursor-move check (after which the cache equals the restored document's
cursor position, and the listeners fired exactly when the position changed)
and suppress default key handling. -/
theorem undo_redo_spec (st : EditorState) :
    (st.undoStack = [] → undo st = (st, ([], EventResult.proceed))) ∧
    (∀ d rest, st.undoStack = d :: rest →
      (undo st).1.currentDoc = d ∧
      (undo st).1.undoStack = rest ∧
      (undo st).1.redoStack = st.currentDoc :: st.redoStack ∧
      (undo st).1.cursorpos = d.insertPos ∧
      (undo st).2.1 = (if d.insertPos ≠ st.cursorpos then st.on_cursor_move else []) ∧
      (undo st).2.2 = EventResult.suppress) ∧
    (st.redoStack = [] → redo st = (st, ([], EventResult.proceed))) ∧
    (∀ d rest, st.redoStack = d :: rest →
      (redo st).1.currentDoc = d ∧
      (redo st).1.redoStack = rest ∧
      (redo st).1.undoStack = st.currentDoc :: st.undoStack ∧
      (redo st).1.cursorpos = d.insertPos ∧
      (redo st).2.1 = (if d.insertPos ≠ st.cursorpos then st.on_cursor_move else []) ∧
      (redo st).2.2 = EventResult.suppress) := by
  refine ⟨?_, ?_, ?_, ?_⟩
  · intro h
    simp [undo, edit_undo, h]
  · intro d rest h
    have hstep : edit_undo st =
        Except.ok { st with undoStack := rest, currentDoc := d,
                            redoStack := st.currentDoc :: st.redoStack } := by
      simp [edit_undo, h]
    by_cases hc : d.insertPos = st.cursorpos
    · simp [undo, hstep, do_cursor_move, hc]
    · simp [undo, hstep, do_cursor_move, hc]
  · intro h
    simp [redo, edit_redo, h]
  · intro d rest h
    have hstep : edit_redo st =
        Except.ok { st with redoStack := rest, currentDoc := d,
                            undoStack := st.currentDoc :: st.undoStack } := by
      simp [edit_redo, h]
    by_cases hc : d.insertPos = st.cursorpos
    · simp [redo, hstep, do_cursor_move, hc]
    · simp [redo, hstep, do_cursor_move, hc]

/-- Witness for C8: with both histories empty, `undo` changes nothing and
lets default handling proceed. -/
theorem undo_redo_spec_witness :
    undo ⟨[], ⟨[], (1, 0)⟩, [], (1, 0), []⟩ =
      (⟨[], ⟨[], (1, 0)⟩, [], (1, 0), []⟩, ([], EventResult.proceed)) :=
  (undo_redo_spec ⟨[], ⟨[], (1, 0)⟩, [], (1, 0), []⟩).1 rfl

/- ### Tab key handling -/

/-- Apply `f` to the element at 0-based index `n` of a list of lines,
leaving everything else unchanged (out-of-range indexes touch nothing). -/
def applyAt (f : List Char → List Char) : Nat → List (List Char) → List (List Char)
  | _, [] => []
  | 0, l :: rest => f l :: rest
  | n + 1, l :: rest => l :: applyAt f n rest

/-- `action(lineno)` on the buffer: Tk line numbers are 1-based. -/
def applyToLine (f : List Char → List Char) (lineno : Nat)
    (lines : List (List Char)) : List (List Char) :=
  applyAt f (lineno - 1) lines

/-- The widget state relevant to `_on_tab`: the buffer lines, the selection
range returned by `tag_ranges('sel')` as (line, column) index pairs when a
selection exists, the cursor's line, and the text before the cursor on that
line. -/
structure TabState where
  lines : List (List Char)
  sel : Option ((Nat × Nat) × (Nat × Nat))
  insertLine : Nat
  before_cursor : List Char

/-- `EditorText._on_tab(shifted)`: choose `dedent` when shifted, `indent`
otherwise.  With no selection, if everything before the cursor is whitespace
or the cursor is at column 0, run the action on the cursor's line; otherwise
only emit an autocompletion request (a placeholder print).  With a
selection, run the action on every line from the selection's first line to
its last, in ascending order, one line at a time.  Always return `break`.
The middle component is the trace of line numbers the action ran on. -/
def on_tab (w : Nat) (shifted : Bool) (st : TabState) :
    TabState × List Nat × EventResult :=
  let action : List Char → List Char :=
    fun l => if shifted then (dedent w l).1 else (indent w l).1
  match st.sel with
  | none =>
      if pyStrIsSpace st.before_cursor || st.before_cursor.isEmpty then
        ({ st with lines := applyToLine action st.insertLine st.lines },
         ([st.insertLine], EventResult.suppress))
      else
        (st, ([], EventResult.suppress))
  | some (selStart, selEnd) =>
      let first_lineno := selStart.1
      let last_lineno := selEnd.1
      let linenos := List.range' first_lineno (last_lineno + 1 - first_lineno)
      ({ st with lines := linenos.foldl (fun ls n => applyToLine action n ls) st.lines },
       (linenos, EventResult.suppress))

theorem applyAt_getElem (f : List Char → List Char) (n : Nat)
    (ls : List (List Char)) (i : Nat) :
    (applyAt f n ls)[i]? = (ls[i]?).map (fun l => if i = n then f l else l) := by
  induction ls generalizing n i with
  | nil => simp [applyAt]
  | cons l rest ih =>
      cases n with
      | zero =>
          cases i with
          | zero => simp [applyAt]
          | succ j =>
              simp only [applyAt, List.getElem?_cons_succ]
              cases hx : rest[j]? <;> simp
      | succ m =>
          cases i with
          | zero => simp [applyAt]
          | succ j =>
              simp only [applyAt, List.getElem?_cons_succ, ih]
              cases hx : rest[j]? <;> simp

theorem foldl_applyToLine_getElem (f : List Char → List Char) (ns : List Nat)
    (h1 : ∀ n ∈ ns, 1 ≤ n) (hnd : ns.Nodup) (ls : List (List Char)) (i : Nat) :
    (ns.foldl (fun acc n => applyToLine f n acc) ls)[i]? =
      (ls[i]?).map (fun l => if i + 1 ∈ ns then f l else l) := by
  induction ns generalizing ls with
  | nil =>
      cases hx : ls[i]? with
      | none => simp [hx]
      | some l => simp [hx]
  | cons x xs ih =>
      have hx1 : 1 ≤ x := h1 x (List.mem_cons_self _ _)
      have hxs1 : ∀ n ∈ xs, 1 ≤ n := fun n hn => h1 n (List.mem_cons_of_mem _ hn)
      obtain ⟨hxnotin, hxsnd⟩ := List.nodup_cons.mp hnd
      rw [List.foldl_cons, ih hxs1 hxsnd, applyToLine, applyAt_getElem]
      cases hx : ls[i]? with
      | none => simp
      | some l =>
          simp only [Option.map_some']
          by_cases hix : i + 1 = x
          · have hi : i = x - 1 := by omega
            have hnot : i + 1 ∉ xs := by
              rw [hix]
              exact hxnotin
            rw [if_pos hi, if_neg hnot, if_pos (by exact List.mem_cons.mpr (Or.inl hix))]
          · have hi : ¬ (i = x - 1) := by omega
            rw [if_neg hi]
            by_cases hmem : i + 1 ∈ xs
            · rw [if_pos hmem, if_pos (List.mem_cons_of_mem _ hmem)]
            · rw [if_neg hmem, if_neg (by
                intro hc
                rcases List.mem_cons.mp hc with hc1 | hc2
                · exact hix hc1
                · exact hmem hc2)]

/-- C9: with a selection spanning lines `a` to `b`, the chosen action
(dedent when shifted, indent otherwise) runs exactly once on every line from
`a` to `b` inclusive, in ascending line-number order, one line at a time;
and in every tab-key case the handler returns `break`. -/
theorem on_tab_spec (w : Nat) (shifted : Bool) (st : TabState)
    (a b ca cb : Nat) (hsel : st.sel = some ((a, ca), (b, cb)))
    (ha : 1 ≤ a) (hab : a ≤ b) :
    (on_tab w shifted st).2.1 = List.range' a (b + 1 - a) ∧
    (∀ n, n ∈ (on_tab w shifted st).2.1 ↔ a ≤ n ∧ n ≤ b) ∧
    List.Pairwise (· < ·) (on_tab w shifted st).2.1 ∧
    (∀ i l, st.lines[i]? = some l →
      ((on_tab w shifted st).1.lines)[i]? =
        some (if a ≤ i + 1 ∧ i + 1 ≤ b
              then (if shifted then (dedent w l).1 else (indent w l).1)
              else l)) ∧
    (∀ st2 : TabState, (on_tab w shifted st2).2.2 = EventResult.suppress) := by
  have htrace : (on_tab w shifted st).2.1 = List.range' a (b + 1 - a) := by
    simp [on_tab, hsel]
  have hlines : (on_tab w shifted st).1.lines =
      (List.range' a (b + 1 - a)).foldl
        (fun ls n => applyToLine
          (fun l => if shifted then (dedent w l).1 else (indent w l).1) n ls)
        st.lines := by
    simp [on_tab, hsel]
  refine ⟨htrace, ?_, ?_, ?_, ?_⟩
  · intro n
    rw [htrace, List.mem_range'_1]
    omega
  · rw [htrace]
    exact List.pairwise_lt_range' a (b + 1 - a)
  · intro i l hil
    have h1 : ∀ n ∈ List.range' a (b + 1 - a), 1 ≤ n := by
      intro n hn
      rw [List.mem_range'_1] at hn
      omega
    have hnd : (List.range' a (b + 1 - a)).Nodup := List.nodup_range' a (b + 1 - a)
    rw [hlines, foldl_applyToLine_getElem _ _ h1 hnd, hil, Option.map_some']
    by_cases hcond : a ≤ i + 1 ∧ i + 1 ≤ b
    · rw [if_pos (List.mem_range'_1.mpr (by omega)), if_pos hcond]
    · rw [if_neg (by
        intro hc
        rw [List.mem_range'_1] at hc
        omega), if_neg hcond]
  · intro st2
    rcases hs2 : st2.sel with _ | ⟨s1, s2⟩
    · simp only [on_tab, hs2]
      by_cases hbc : (pyStrIsSpace st2.before_cursor || st2.before_cursor.isEmpty) = true
      · rw [if_pos hbc]
      · rw [if_neg hbc]
    · simp [on_tab, hs2]

/-- Witness for C9: a three-line buffer with a selection from line 1 to
line 2; the trace is the ascending enumeration of lines 1 and 2. -/
theorem on_tab_spec_witness :
    (on_tab 4 false ⟨[[' ', 'a'], ['b'], ['c']], some ((1, 0), (2, 0)), 1, []⟩).2.1 =
      List.range' 1 (2 + 1 - 1) :=
  (on_tab_spec 4 false ⟨[[' ', 'a'], ['b'], ['c']], some ((1, 0), (2, 0)), 1, []⟩
    1 2 0 0 rfl (by decide) (by decide)).1

end Porcupine
